import Mathlib

/-!
Verification development for the SCOTUS justice-concurrence repository.

The repository has two source files:
  * a Node preprocessing script (CSV parser + canonicalizer `processData`
    producing the dataset artifact), and
  * the browser app (`app.js`) whose computational core is
    `calculateConcurrence`, `getAllJusticesInRange` / `getActiveJustices`
    and the min/max scale-range scan inside `renderMatrix`.

This file gives a shallow embedding of those functions and proves the
spec claims about them.  JavaScript strings are modelled by `String`
(whose underlying representation is a `List Char`); JavaScript objects
and `Map`s are modelled by insertion-ordered association lists where an
update of an existing key keeps the key's position (`setA`), matching
JS semantics.  JS numbers appearing here are integers (terms, vote
codes) modelled by `Int`/`Nat`, and agreement rates are modelled by `ℚ`.
-/

/-- Association-list lookup, modelling JS object/`Map` key access
(`obj[k]` / `map.get(k)`): the first (and in practice only) binding of
the key. -/
def lookupA {β : Type} (l : List (String × β)) (k : String) : Option β :=
  match l with
  | [] => none
  | (k', v) :: t => if k' = k then some v else lookupA t k

/-- Association-list update, modelling JS object/`Map` key assignment
(`obj[k] = v` / `map.set(k, v)`): an existing binding is overwritten in
place (the key keeps its insertion position), a new key is appended. -/
def setA {β : Type} (l : List (String × β)) (k : String) (v : β) : List (String × β) :=
  match l with
  | [] => [(k, v)]
  | (k', v') :: t => if k' = k then (k, v) :: t else (k', v') :: setA t k v

/-- Whitespace characters recognised by the model of JS `trim()` and
`parseInt` (the characters that actually occur in the CSV sources). -/
def isWS (c : Char) : Bool :=
  c = ' ' || c = '\t' || c = '\n' || c = '\r'

/-- Remove leading and trailing whitespace from a character list. -/
def trimChars (cs : List Char) : List Char :=
  ((cs.dropWhile isWS).reverse.dropWhile isWS).reverse

/-- Model of JS `String.prototype.trim`. -/
def jsTrim (s : String) : String :=
  ⟨trimChars s.data⟩

/-- Accumulate the decimal-digit prefix of a character list (the digits
already consumed are in `acc`), stopping at the first non-digit. -/
def parseUnsignedAux (cs : List Char) (acc : Nat) : Nat :=
  match cs with
  | [] => acc
  | c :: rest => if c.isDigit then parseUnsignedAux rest (acc * 10 + (c.toNat - 48)) else acc

/-- Parse the decimal-digit prefix of a character list; `none` when the
list does not start with a digit. -/
def parseUnsigned (cs : List Char) : Option Nat :=
  match cs with
  | [] => none
  | c :: rest => if c.isDigit then some (parseUnsignedAux rest (c.toNat - 48)) else none

/-- Model of JS `parseInt(s, 10)`: skip leading whitespace, optional
sign, then the longest decimal-digit prefix; `none` models `NaN` (no
digits at all). -/
def parseIntJS (s : String) : Option Int :=
  match s.data.dropWhile isWS with
  | '-' :: rest => (parseUnsigned rest).map (fun n => -(n : Int))
  | '+' :: rest => (parseUnsigned rest).map (fun n => (n : Int))
  | cs => (parseUnsigned cs).map (fun n => (n : Int))

/-! CSV parser (`parseCSV` / `parseCSVLine` in the preprocessing script). -/

/-- Split on `'\n'`; models the `'\n'`-splitting part of
`content.split(/\r?\n/)`. -/
def splitOnNl (cs : List Char) : List (List Char) :=
  cs.foldr
    (fun c acc =>
      if c = '\n' then [] :: acc
      else
        match acc with
        | h :: t => (c :: h) :: t
        | [] => [[c]])
    [[]]

/-- Remove a single trailing `'\r'`; together with `splitOnNl` this
models `content.split(/\r?\n/)` (the regex consumes at most one `'\r'`
immediately before each `'\n'`). -/
def dropTrailingCR (cs : List Char) : List Char :=
  match cs.getLast? with
  | some '\r' => cs.dropLast
  | _ => cs

/-- Model of `content.split(/\r?\n/)`. -/
def splitLines (s : String) : List String :=
  (splitOnNl s.data).map (fun l => ⟨dropTrailingCR l⟩)

/-- The character loop of `parseCSVLine`: `cur` is the field being
accumulated, `inQ` the `inQuotes` flag.  A doubled quote inside quotes
is one literal quote; a comma outside quotes ends the field; each field
is pushed through `trim()`. -/
def parseCSVLineAux (cs cur : List Char) (inQ : Bool) : List (List Char) :=
  match cs with
  | [] => [trimChars cur]
  | '"' :: rest =>
      if inQ then
        match rest with
        | '"' :: rest2 => parseCSVLineAux rest2 (cur ++ ['"']) true
        | [] => parseCSVLineAux [] cur false
        | c :: rest2 => parseCSVLineAux (c :: rest2) cur false
      else parseCSVLineAux rest cur true
  | ',' :: rest =>
      if inQ then parseCSVLineAux rest (cur ++ [',']) true
      else trimChars cur :: parseCSVLineAux rest [] false
  | c :: rest => parseCSVLineAux rest (cur ++ [c]) inQ

/-- Model of `parseCSVLine` from the preprocessing script. -/
def parseCSVLine (line : String) : List String :=
  (parseCSVLineAux line.data [] false).map String.mk

/-- One iteration of the row loop of `parseCSV`: trim the raw line, skip
it when blank, parse it, skip it when the field count differs from the
header's, otherwise build the row object (`row[headers[j]] = values[j]`). -/
def lineToRow (headers : List String) (l : String) : Option (List (String × String)) :=
  let t := jsTrim l
  if t = "" then none
  else
    let values := parseCSVLine t
    if values.length ≠ headers.length then none
    else some ((headers.zip values).foldl (fun row kv => setA row kv.1 kv.2) [])

/-- The data-row loop of `parseCSV`, given the already-parsed header
line and the remaining raw lines. -/
def parseCSVRows (headerLine : String) (rest : List String) : List (List (String × String)) :=
  rest.filterMap (lineToRow (parseCSVLine headerLine))

/-- Model of `parseCSV` from the preprocessing script. -/
def parseCSV (content : String) : List (List (String × String)) :=
  match splitLines content with
  | [] => []
  | hl :: rest => parseCSVRows hl rest

/-! Canonicalizer (`processData` in the preprocessing script). -/

/-- The static `JUSTICE_PARTY` table mapping SCDB justice identifiers to
the appointing president's party. -/
def JUSTICE_PARTY : List (String × String) := [
  ("JJay", "F"),
  ("JRutledge", "F"),
  ("WCushing", "F"),
  ("JWilson", "F"),
  ("JBlair", "F"),
  ("JIredell", "F"),
  ("TJohnson", "F"),
  ("WPaterson", "F"),
  ("SChase", "F"),
  ("OEllsworth", "F"),
  ("BWashington", "F"),
  ("AMoore", "F"),
  ("JMarshall", "F"),
  ("WJohnson", "DR"),
  ("HBLivingston", "DR"),
  ("TTodd", "DR"),
  ("GDuvall", "DR"),
  ("JStory", "DR"),
  ("SThompson", "DR"),
  ("RTrimble", "DR"),
  ("JMcLean", "D"),
  ("HBaldwin", "D"),
  ("JMWayne", "D"),
  ("RBTaney", "D"),
  ("PPBarbour", "D"),
  ("JCatron", "D"),
  ("JMcKinley", "D"),
  ("PVDaniel", "D"),
  ("SNelson", "W"),
  ("LWoodbury", "D"),
  ("RCGrier", "D"),
  ("BRCurtis", "W"),
  ("JACampbell", "D"),
  ("NClifford", "D"),
  ("NHSwayne", "R"),
  ("SFMiller", "R"),
  ("DDavis", "R"),
  ("SJField", "R"),
  ("SPChase", "R"),
  ("WStrong", "R"),
  ("JPBradley", "R"),
  ("WHunt", "R"),
  ("MRWaite", "R"),
  ("JHarlan1", "R"),
  ("WBWoods", "R"),
  ("SMatthews", "R"),
  ("HGray", "R"),
  ("SBlatchford", "R"),
  ("LQCLamar", "D"),
  ("MWFuller", "D"),
  ("DJBrewer", "R"),
  ("HBBrown", "R"),
  ("GShiras", "R"),
  ("HEJackson", "R"),
  ("EDWhite", "D"),
  ("RWPeckham", "D"),
  ("JMcKenna", "R"),
  ("OWHolmes", "R"),
  ("WRDay", "R"),
  ("WHMoody", "R"),
  ("HHLurton", "R"),
  ("CEHughes", "R"),
  ("WVanDevanter", "R"),
  ("JRLamar", "R"),
  ("MPitney", "R"),
  ("JCMcReynolds", "D"),
  ("LDBrandeis", "D"),
  ("JHClarke", "D"),
  ("WHTaft", "R"),
  ("GSutherland", "R"),
  ("PButler", "R"),
  ("ETSanford", "R"),
  ("HFStone", "R"),
  ("OJRoberts", "R"),
  ("BNCardozo", "R"),
  ("HLBlack", "D"),
  ("SFReed", "D"),
  ("FFrankfurter", "D"),
  ("WODouglas", "D"),
  ("FMurphy", "D"),
  ("JFByrnes", "D"),
  ("RHJackson", "D"),
  ("WBRutledge", "D"),
  ("HHBurton", "D"),
  ("FMVinson", "D"),
  ("TCClark", "D"),
  ("SMinton", "D"),
  ("EWarren", "R"),
  ("JHarlan2", "R"),
  ("WJBrennan", "R"),
  ("CEWhittaker", "R"),
  ("PStewart", "R"),
  ("BRWhite", "D"),
  ("AJGoldberg", "D"),
  ("AFortas", "D"),
  ("TMarshall", "D"),
  ("WEBurger", "R"),
  ("HBlackmun", "R"),
  ("LFPowell", "R"),
  ("WHRehnquist", "R"),
  ("JPStevens", "R"),
  ("SDOConnor", "R"),
  ("AScalia", "R"),
  ("AMKennedy", "R"),
  ("DHSouter", "R"),
  ("CThomas", "R"),
  ("RBGinsburg", "D"),
  ("SGBreyer", "D"),
  ("SBreyer", "D"),
  ("JGRoberts", "R"),
  ("SAAlito", "R"),
  ("SSotomayor", "D"),
  ("EKagan", "D"),
  ("NMGorsuch", "R"),
  ("BMKavanaugh", "R"),
  ("ACBarrett", "R"),
  ("KBJackson", "D"),
  ("SOConnor", "R"),
  ("JRutledge2", "F"),
  ("LQLamar", "D"),
  ("EDEWhite", "D"),
  ("CEHughes1", "R"),
  ("CEHughes2", "R"),
  ("HABlackmun", "R")]

/-- Member metadata derived by the canonicalizer (`justices` map values:
display name, first/last active term, appointing party or null). -/
structure JusticeInfo where
  name : String
  firstTerm : Int
  lastTerm : Int
  party : Option String
deriving DecidableEq

/-- Case entry built by the canonicalizer (`cases` map values: term and
the per-justice vote mapping). -/
structure CaseEntry where
  term : Int
  votes : List (String × Int)
deriving DecidableEq

/-- The two maps accumulated by `processData`. -/
structure PState where
  cases : List (String × CaseEntry)
  justices : List (String × JusticeInfo)
deriving DecidableEq

/-- Uppercase ASCII letter (the regex class `[A-Z]`). -/
def isUpperAZ (c : Char) : Bool := 'A' ≤ c && c ≤ 'Z'

/-- Lowercase ASCII letter (the regex class `[a-z]`). -/
def isLowerAZ (c : Char) : Bool := 'a' ≤ c && c ≤ 'z'

/-- Model of `formatJusticeName` from the preprocessing script: an
identifier matching `^([A-Z]+)([A-Z][a-z]+)(\d?)$` is rendered as
dotted initials, a space, the surname, and an optional " (I)"/" (II)"
suffix for a trailing disambiguator digit; anything else is returned
unchanged.  The regex matches exactly when the maximal uppercase prefix
`P` has length at least 2, is followed by a nonempty maximal lowercase
run `L`, and the remainder is empty or a single digit; the greedy
capture puts all of `P` but its last letter in group 1. -/
def formatJusticeName (justiceName : String) : String :=
  let cs := justiceName.data
  let P := cs.takeWhile isUpperAZ
  let rest1 := cs.dropWhile isUpperAZ
  let L := rest1.takeWhile isLowerAZ
  let rest2 := rest1.dropWhile isLowerAZ
  let sfx? : Option (List Char) :=
    match rest2 with
    | [] => some []
    | [d] => if d.isDigit then some (if d = '1' then " (I)".data else " (II)".data) else none
    | _ => none
  match sfx?, P.getLast? with
  | some sfx, some lastUpper =>
    if 2 ≤ P.length ∧ 1 ≤ L.length then
      ⟨(P.dropLast.flatMap (fun c => [c, '.'])) ++ (' ' :: lastUpper :: L) ++ sfx⟩
    else justiceName
  | _, _ => justiceName

/-- Field of a parsed row read by `processData`: `row.caseId` (missing
and empty both behave as the falsy empty string). -/
def rowCaseId (row : List (String × String)) : String :=
  (lookupA row "caseId").getD ""

/-- Field of a parsed row read by `processData`: `parseInt(row.term, 10)`
(`none` models `NaN`, including the missing-field case). -/
def rowTerm? (row : List (String × String)) : Option Int :=
  (lookupA row "term").bind parseIntJS

/-- Field of a parsed row read by `processData`: `row.justiceName`. -/
def rowJustice (row : List (String × String)) : String :=
  (lookupA row "justiceName").getD ""

/-- Field of a parsed row read by `processData`:
`parseInt(row.majority, 10)`. -/
def rowMaj? (row : List (String × String)) : Option Int :=
  (lookupA row "majority").bind parseIntJS

/-- One iteration of the record loop of `processData`: reject the row
when the case identifier is empty, the term or majority fails to parse,
the justice name is empty, or the majority code is neither 1 nor 2;
otherwise upsert the case (first-seen term wins, the vote mapping is
extended with last-write-wins) and the justice metadata (running
min/max of terms). -/
def processStep (st : PState) (row : List (String × String)) : PState :=
  match rowTerm? row, rowMaj? row with
  | some term, some majority =>
    if rowCaseId row = "" ∨ rowJustice row = "" then st
    else if majority ≠ 1 ∧ majority ≠ 2 then st
    else
      let caseId := rowCaseId row
      let justiceName := rowJustice row
      let cases' :=
        match lookupA st.cases caseId with
        | none => st.cases ++ [(caseId, { term := term, votes := [(justiceName, majority)] })]
        | some ce => setA st.cases caseId { ce with votes := setA ce.votes justiceName majority }
      let justices' :=
        match lookupA st.justices justiceName with
        | none => st.justices ++ [(justiceName,
            { name := formatJusticeName justiceName, firstTerm := term, lastTerm := term,
              party := lookupA JUSTICE_PARTY justiceName })]
        | some ji => setA st.justices justiceName
            { ji with firstTerm := min ji.firstTerm term, lastTerm := max ji.lastTerm term }
      { cases := cases', justices := justices' }
  | _, _ => st

/-- Model of `processData` from the preprocessing script: fold the
record loop over the parsed rows in source order. -/
def processData (rows : List (List (String × String))) : PState :=
  rows.foldl processStep { cases := [], justices := [] }

/-! Aggregation engine (`app.js`). -/

/-- A case as consumed by the app (one element of `data.cases`). -/
structure AppCase where
  id : String
  term : Int
  votes : List (String × Int)
deriving DecidableEq

/-- The dataset artifact as consumed by the app (`data.cases` and
`data.justices`). -/
structure AppData where
  cases : List AppCase
  justices : List (String × JusticeInfo)
deriving DecidableEq

/-- Model of `filterCases`: keep cases with
`yearStart <= term <= yearEnd`. -/
def filterCases (data : AppData) (yearStart yearEnd : Int) : List AppCase :=
  data.cases.filter (fun c => yearStart ≤ c.term && c.term ≤ yearEnd)

/-- JS `Set.prototype.add`: append the element unless already present. -/
def insertSet (l : List String) (x : String) : List String :=
  if x ∈ l then l else l ++ [x]

/-- The `justiceSet` accumulation of `getAllJusticesInRange`: every key
of every case's vote mapping, in first-insertion order. -/
def justiceSetOf (cases : List AppCase) : List String :=
  cases.foldl (fun s c => (c.votes.map Prod.fst).foldl insertSet s) []

/-- Lexicographic comparison of character lists (by code point). -/
def lexCmp : List Char → List Char → Ordering
  | [], [] => .eq
  | [], _ :: _ => .lt
  | _ :: _, [] => .gt
  | a :: as, b :: bs => if a < b then .lt else if b < a then .gt else lexCmp as bs

/-- Lowercased character list of a string. -/
def lowerChars (s : String) : List Char := s.data.map Char.toLower

/-- Model of `a.localeCompare(b)` for the default locale: primary
strength is case-insensitive lexicographic comparison, with the raw
code-point comparison as tie-break. -/
def localeCmp (a b : String) : Ordering :=
  (lexCmp (lowerChars a) (lowerChars b)).then (lexCmp a.data b.data)

/-- The first-term key of the sort comparator:
`data.justices[a]?.firstTerm || 0` (a missing justice contributes 0). -/
def firstTermOrZero (data : AppData) (j : String) : Int :=
  match lookupA data.justices j with
  | some info => info.firstTerm
  | none => 0

/-- The sort comparator of `getAllJusticesInRange`, as the non-strict
order "comparator(a, b) <= 0": ascending first term, ties broken by
`a.localeCompare(b)` on the justice identifiers. -/
def jLE (data : AppData) (a b : String) : Bool :=
  let fa := firstTermOrZero data a
  let fb := firstTermOrZero data b
  if fa = fb then decide (localeCmp a b ≠ Ordering.gt) else decide (fa < fb)

/-- Model of `getAllJusticesInRange`: the justices appearing in the
given cases, sorted by the comparator `jLE`. -/
def getAllJusticesInRange (data : AppData) (cases : List AppCase) : List String :=
  List.insertionSort (fun a b => jLE data a b = true) (justiceSetOf cases)

/-- Model of `getActiveJustices`: the sorted in-range justices, filtered
by the selected subset when one is set (`null` models "all"). -/
def getActiveJustices (data : AppData) (cases : List AppCase)
    (selectedJustices : Option (List String)) : List String :=
  let allJustices := getAllJusticesInRange data cases
  match selectedJustices with
  | none => allJustices
  | some sel => allJustices.filter (fun j => sel.contains j)

/-- One cell of the concurrence matrix (`{ agreed, total }`). -/
@[ext] structure Cell where
  agreed : Nat
  total : Nat
deriving DecidableEq

/-- The matrix built by `calculateConcurrence`, as a total function on
index pairs (indices at or beyond the justice count keep the initial
zero cell). -/
def Mat : Type := Nat → Nat → Cell

/-- Pointwise update of one matrix cell. -/
def updAt (m : Mat) (i j : Nat) (f : Cell → Cell) : Mat :=
  fun a b => if a = i ∧ b = j then f (m a b) else m a b

/-- The body of the pair loop of `calculateConcurrence` for one ordered
pair of voters with indices `ji`, `jj`: increment `total` of `(ji,jj)`
and `(jj,ji)`, and `agreed` of both when the two votes are equal (for a
self-pair both increments land on the same diagonal cell). -/
def applyVoterPair (m : Mat) (ji jj : Nat) (ag : Bool) : Mat :=
  let m1 := updAt m ji jj (fun c => { c with total := c.total + 1 })
  let m2 := updAt m1 jj ji (fun c => { c with total := c.total + 1 })
  if ag then
    let m3 := updAt m2 ji jj (fun c => { c with agreed := c.agreed + 1 })
    updAt m3 jj ji (fun c => { c with agreed := c.agreed + 1 })
  else m2

/-- The index pairs `(i, j)` with `i <= j` enumerated by the nested
voter loops (`for i; for j = i`), as the corresponding element pairs in
loop order. -/
def pairsSelf {α : Type} : List α → List (α × α)
  | [] => []
  | v :: rest => ((v, v) :: rest.map (fun w => (v, w))) ++ pairsSelf rest

/-- Model of `justiceIndex.get(v)` where the `Map` is built from
`justices.map((j, i) => [j, i])`: later pairs overwrite earlier ones,
so the index of the last occurrence. -/
def jIndex (js : List String) (v : String) : Nat :=
  js.length - 1 - js.reverse.indexOf v

/-- One iteration of the pair loop of `calculateConcurrence` for the
voter pair `p` of one case: votes are read from the case's vote
mapping, and the agreement test is `voteI === voteJ`. -/
def casePairStep (js : List String) (votes : List (String × Int)) (m : Mat)
    (p : String × String) : Mat :=
  applyVoterPair m (jIndex js p.1) (jIndex js p.2)
    (decide (lookupA votes p.1 = lookupA votes p.2))

/-- The case loop body of `calculateConcurrence`: restrict the case's
voters to the justices present in `justiceIndex`, then run the pair
loop. -/
def caseFold (js : List String) (m : Mat) (c : AppCase) : Mat :=
  let voters := (c.votes.map Prod.fst).filter (fun v => js.contains v)
  (pairsSelf voters).foldl (casePairStep js c.votes) m

/-- Model of `calculateConcurrence` (the `agreed`/`total` counts; the
derived `rate` field is `Cell.rate`). -/
def calculateConcurrence (cases : List AppCase) (js : List String) : Mat :=
  cases.foldl (caseFold js) (fun _ _ => { agreed := 0, total := 0 })

/-- The derived `rate` field of a cell:
`cell.total > 0 ? cell.agreed / cell.total : null`. -/
def Cell.rate (c : Cell) : Option ℚ :=
  if 0 < c.total then some ((c.agreed : ℚ) / (c.total : ℚ)) else none

/-- The min/max scan of `renderMatrix` that derives the dynamic color
scale range: over all off-diagonal cells with a non-null rate and
`total >= minCases`, starting from `minRate = 1, maxRate = 0`. -/
def scaleRange (matrix : Mat) (n : Nat) (minCases : Nat) : ℚ × ℚ :=
  (List.range n).foldl
    (fun acc i =>
      (List.range n).foldl
        (fun acc2 j =>
          if i ≠ j ∧ ((matrix i j).rate).isSome ∧ minCases ≤ (matrix i j).total then
            (min acc2.1 (((matrix i j).rate).getD 0), max acc2.2 (((matrix i j).rate).getD 0))
          else acc2)
        acc)
    ((1 : ℚ), (0 : ℚ))

/-- Modelled from the spec's words (§4.3 step 4), for comparison with
the implementation's comparator `jLE`: active members ordered ascending
by first-active period, ties broken by case-insensitive lexical order
of the member's display name. -/
def specMemberLE (data : AppData) (a b : String) : Bool :=
  let fa := firstTermOrZero data a
  let fb := firstTermOrZero data b
  let na := match lookupA data.justices a with | some i => i.name | none => a
  let nb := match lookupA data.justices b with | some i => i.name | none => b
  if fa = fb then decide (lexCmp (lowerChars na) (lowerChars nb) ≠ Ordering.gt)
  else decide (fa < fb)

/-! Association-list lemmas. -/

theorem lookupA_setA_self {β : Type} (l : List (String × β)) (k : String) (v : β) :
    lookupA (setA l k v) k = some v := by
  induction l with
  | nil => simp [setA, lookupA]
  | cons h t ih =>
    obtain ⟨k', v'⟩ := h
    by_cases hk : k' = k
    · simp [setA, hk, lookupA]
    · simp [setA, hk, lookupA, ih]

theorem lookupA_setA_ne {β : Type} (l : List (String × β)) (k k' : String) (v : β)
    (h : k ≠ k') : lookupA (setA l k v) k' = lookupA l k' := by
  induction l with
  | nil => simp [setA, lookupA, h]
  | cons hd t ih =>
    obtain ⟨k0, v0⟩ := hd
    by_cases hk : k0 = k
    · subst hk
      simp [setA, lookupA, h]
    · simp [setA, hk, lookupA, ih]

theorem lookupA_append_single {β : Type} (l : List (String × β)) (k k' : String) (v : β) :
    lookupA (l ++ [(k, v)]) k' =
      match lookupA l k' with
      | some w => some w
      | none => if k = k' then some v else none := by
  induction l with
  | nil => simp [lookupA]
  | cons hd t ih =>
    obtain ⟨k0, v0⟩ := hd
    by_cases hk : k0 = k'
    · simp [lookupA, hk]
    · simp [lookupA, hk, ih]

theorem lookupA_mem {β : Type} {l : List (String × β)} {k : String} {v : β}
    (h : lookupA l k = some v) : (k, v) ∈ l := by
  induction l with
  | nil => simp [lookupA] at h
  | cons hd t ih =>
    obtain ⟨k0, v0⟩ := hd
    by_cases hk : k0 = k
    · subst hk
      simp [lookupA] at h
      simp [h]
    · simp [lookupA, hk] at h
      exact List.mem_cons_of_mem _ (ih h)

theorem mem_setA {β : Type} {l : List (String × β)} {k : String} {v : β} {p : String × β}
    (h : p ∈ setA l k v) : p ∈ l ∨ p = (k, v) := by
  induction l with
  | nil => simp [setA] at h; simp [h]
  | cons hd t ih =>
    obtain ⟨k0, v0⟩ := hd
    by_cases hk : k0 = k
    · simp [setA, hk] at h
      rcases h with h | h
      · right; simp [h]
      · left; exact List.mem_cons_of_mem _ h
    · simp [setA, hk] at h
      rcases h with h | h
      · left; simp [h]
      · rcases ih h with h' | h'
        · left; exact List.mem_cons_of_mem _ h'
        · right; exact h'

theorem lookupA_isSome_iff {β : Type} (l : List (String × β)) (k : String) :
    (lookupA l k).isSome = true ↔ k ∈ l.map Prod.fst := by
  induction l with
  | nil => simp [lookupA]
  | cons hd t ih =>
    obtain ⟨k0, v0⟩ := hd
    by_cases hk : k0 = k
    · simp [lookupA, hk]
    · simp [lookupA, hk, ih, Ne.symm hk]

/-! Trimming lemmas for the CSV parser. -/

theorem dropWhile_head_false {α : Type} (p : α → Bool) (l : List α) :
    ∀ x, (l.dropWhile p).head? = some x → p x = false := by
  induction l with
  | nil => simp
  | cons a t ih =>
    intro x hx
    by_cases ha : p a
    · rw [List.dropWhile_cons_of_pos ha] at hx
      exact ih x hx
    · rw [List.dropWhile_cons_of_neg ha] at hx
      simp at hx
      subst hx
      simpa using ha

theorem dropWhile_eq_self_of_head {α : Type} (p : α → Bool) (l : List α)
    (h : ∀ x, l.head? = some x → p x = false) : l.dropWhile p = l := by
  cases l with
  | nil => rfl
  | cons a t =>
    have := h a rfl
    simp [List.dropWhile_cons, this]

theorem dropWhile_idem {α : Type} (p : α → Bool) (l : List α) :
    (l.dropWhile p).dropWhile p = l.dropWhile p :=
  dropWhile_eq_self_of_head p _ (dropWhile_head_false p l)

theorem trimChars_idem (cs : List Char) : trimChars (trimChars cs) = trimChars cs := by
  unfold trimChars
  set A := cs.dropWhile isWS with hA
  set B := A.reverse.dropWhile isWS with hB
  have h1 : B.reverse.dropWhile isWS = B.reverse := by
    apply dropWhile_eq_self_of_head
    intro x hx
    have hsplit : A.reverse.takeWhile isWS ++ B = A.reverse :=
      List.takeWhile_append_dropWhile ..
    have hA2 : A = B.reverse ++ (A.reverse.takeWhile isWS).reverse := by
      have hrev := congrArg List.reverse hsplit
      simpa [List.reverse_append] using hrev.symm
    have hxA : A.head? = some x := by
      rw [hA2]
      cases hbr : B.reverse with
      | nil => rw [hbr] at hx; simp at hx
      | cons y ys =>
        rw [hbr] at hx
        simp at hx
        simp [hx]
    exact dropWhile_head_false isWS cs x hxA
  rw [h1, List.reverse_reverse, hB, dropWhile_idem]

theorem parseCSVLineAux_trimmed (cs cur : List Char) (inQ : Bool) :
    ∀ v ∈ parseCSVLineAux cs cur inQ, ∃ u, v = trimChars u := by
  induction cs, cur, inQ using parseCSVLineAux.induct with
  | case1 cur inQ =>
    intro v hv
    simp [parseCSVLineAux] at hv
    exact ⟨cur, hv⟩
  | case2 cur rest2 ih =>
    intro v hv
    simp [parseCSVLineAux] at hv
    exact ih v hv
  | case3 cur ih =>
    intro v hv
    simp [parseCSVLineAux] at hv
    exact ⟨cur, hv⟩
  | case4 cur c rest2 hne ih =>
    intro v hv
    have hc : c ≠ '"' := hne
    simp [parseCSVLineAux, hc] at hv
    exact ih v hv
  | case5 cur inQ rest hinQ ih =>
    intro v hv
    simp at hinQ
    subst hinQ
    rw [parseCSVLineAux.eq_def] at hv
    simp at hv
    exact ih v hv
  | case6 cur rest ih =>
    intro v hv
    simp [parseCSVLineAux] at hv
    exact ih v hv
  | case7 cur inQ rest hinQ ih =>
    intro v hv
    simp at hinQ
    simp [parseCSVLineAux, hinQ] at hv
    rcases hv with hv | hv
    · exact ⟨cur, hv⟩
    · exact ih v hv
  | case8 cur inQ c rest hq hc ih =>
    intro v hv
    have hq' : c ≠ '"' := hq
    have hc' : c ≠ ',' := hc
    simp [parseCSVLineAux, hq', hc'] at hv
    exact ih v hv

theorem parseCSVLine_trimmed (t : String) :
    ∀ s ∈ parseCSVLine t, jsTrim s = s := by
  intro s hs
  rcases List.mem_map.mp hs with ⟨v, hv, rfl⟩
  rcases parseCSVLineAux_trimmed t.data [] false v hv with ⟨u, rfl⟩
  show String.mk (trimChars (trimChars u)) = String.mk (trimChars u)
  rw [trimChars_idem]

theorem mem_foldl_setA (pairs : List (String × String)) (acc : List (String × String))
    (kv : String × String)
    (h : kv ∈ pairs.foldl (fun row p => setA row p.1 p.2) acc) : kv ∈ acc ∨ kv ∈ pairs := by
  induction pairs generalizing acc with
  | nil => simp at h; exact Or.inl h
  | cons p t ih =>
    simp only [List.foldl_cons] at h
    rcases ih (setA acc p.1 p.2) h with h' | h'
    · rcases mem_setA h' with h'' | h''
      · exact Or.inl h''
      · right
        rw [h'']
        exact List.mem_cons_self _ _
    · right
      exact List.mem_cons_of_mem _ h'

/-- C8: the parser silently drops any data row whose field count
differs from the header's (the parse of the remaining rows is
unchanged), skips blank lines (the same dropped-line statement with a
blank line), and trims leading/trailing whitespace on each field after
unescaping (every field value of every parsed row is trim-invariant). -/
theorem parseCSV_drops_malformed_and_trims (hl l : String) (ls1 ls2 : List String)
    (h : jsTrim l = "" ∨ (parseCSVLine (jsTrim l)).length ≠ (parseCSVLine hl).length) :
    parseCSVRows hl (ls1 ++ l :: ls2) = parseCSVRows hl (ls1 ++ ls2)
    ∧ ∀ content : String, ∀ row ∈ parseCSV content, ∀ kv ∈ row, jsTrim kv.2 = kv.2 := by
  constructor
  · have hnone : lineToRow (parseCSVLine hl) l = none := by
      unfold lineToRow
      by_cases hb : jsTrim l = ""
      · simp [hb]
      · rcases h with h | h
        · exact absurd h hb
        · simp [hb, h]
    unfold parseCSVRows
    simp [List.filterMap_append, hnone]
  · intro content row hrow kv hkv
    unfold parseCSV at hrow
    rcases hsl : splitLines content with _ | ⟨hl', rest⟩
    · rw [hsl] at hrow; simp at hrow
    · rw [hsl] at hrow
      unfold parseCSVRows at hrow
      rcases List.mem_filterMap.mp hrow with ⟨line, _, hsome⟩
      unfold lineToRow at hsome
      by_cases hb : jsTrim line = ""
      · simp [hb] at hsome
      · simp only [hb, if_false] at hsome
        by_cases hlen : (parseCSVLine (jsTrim line)).length ≠ (parseCSVLine hl').length
        · simp [hlen] at hsome
        · simp only [hlen, if_false, Option.some_inj] at hsome
          rw [← hsome] at hkv
          rcases mem_foldl_setA _ _ _ hkv with h' | h'
          · simp at h'
          · obtain ⟨k, v⟩ := kv
            have hv := (List.of_mem_zip h').2
            exact parseCSVLine_trimmed _ _ hv

/-! Canonicalizer lemmas. -/

/-- The acceptance test of the record loop, as a Boolean predicate on a
parsed row. -/
def acceptedRow (row : List (String × String)) : Bool :=
  decide (rowCaseId row ≠ "") && (rowTerm? row).isSome && decide (rowJustice row ≠ "")
    && (decide (rowMaj? row = some 1) || decide (rowMaj? row = some 2))

/-- The parsed term of an accepted row. -/
def rowTermD (row : List (String × String)) : Int := (rowTerm? row).getD 0

/-- The parsed majority code of an accepted row. -/
def rowMajD (row : List (String × String)) : Int := (rowMaj? row).getD 0

theorem processStep_of_rejected (st : PState) (row : List (String × String))
    (h : rowCaseId row = "" ∨ rowTerm? row = none ∨ rowJustice row = ""
       ∨ (rowMaj? row ≠ some 1 ∧ rowMaj? row ≠ some 2)) :
    processStep st row = st := by
  unfold processStep
  rcases hterm : rowTerm? row with _ | t
  · rfl
  · rcases hmaj : rowMaj? row with _ | m
    · rfl
    · rcases h with h | h | h | h
      · simp [h]
      · rw [hterm] at h; cases h
      · simp [h]
      · have hm1 : m ≠ 1 := fun e => h.1 (by rw [hmaj, e])
        have hm2 : m ≠ 2 := fun e => h.2 (by rw [hmaj, e])
        by_cases hg : rowCaseId row = "" ∨ rowJustice row = ""
        · simp [hg]
        · simp [hg, hm1, hm2]

theorem rejected_of_not_accepted {row : List (String × String)}
    (h : acceptedRow row = false) :
    rowCaseId row = "" ∨ rowTerm? row = none ∨ rowJustice row = ""
      ∨ (rowMaj? row ≠ some 1 ∧ rowMaj? row ≠ some 2) := by
  by_cases h1 : rowCaseId row = ""
  · exact Or.inl h1
  rcases hterm : rowTerm? row with _ | t
  · exact Or.inr (Or.inl rfl)
  by_cases h3 : rowJustice row = ""
  · exact Or.inr (Or.inr (Or.inl h3))
  unfold acceptedRow at h
  simp [h1, h3, hterm] at h
  exact Or.inr (Or.inr (Or.inr h))

theorem accepted_spec {row : List (String × String)} (h : acceptedRow row = true) :
    rowCaseId row ≠ "" ∧ rowTerm? row = some (rowTermD row) ∧ rowJustice row ≠ ""
      ∧ (rowMaj? row = some 1 ∨ rowMaj? row = some 2) := by
  unfold acceptedRow at h
  simp at h
  obtain ⟨⟨⟨h1, h2⟩, h3⟩, h4⟩ := h
  rcases Option.isSome_iff_exists.mp h2 with ⟨t, ht⟩
  exact ⟨h1, by simp [rowTermD, ht], h3, h4⟩

theorem processStep_cases_of_accepted (st : PState) (row : List (String × String))
    (h : acceptedRow row = true) :
    (processStep st row).cases =
      match lookupA st.cases (rowCaseId row) with
      | none => st.cases ++ [(rowCaseId row,
          { term := rowTermD row, votes := [(rowJustice row, rowMajD row)] })]
      | some ce => setA st.cases (rowCaseId row)
          { ce with votes := setA ce.votes (rowJustice row) (rowMajD row) } := by
  obtain ⟨h1, hterm, h3, h4⟩ := accepted_spec h
  have hmaj : rowMaj? row = some (rowMajD row) := by
    rcases h4 with h4 | h4 <;> simp [rowMajD, h4]
  have hm12 : ¬(rowMajD row ≠ 1 ∧ rowMajD row ≠ 2) := by
    rcases h4 with h4 | h4 <;> · rw [h4] at hmaj; simp at hmaj; simp [hmaj]
  unfold processStep
  rw [hterm, hmaj]
  simp only [h1, h3, or_self, if_false, hm12, false_or]

theorem processStep_justices_of_accepted (st : PState) (row : List (String × String))
    (h : acceptedRow row = true) :
    (processStep st row).justices =
      match lookupA st.justices (rowJustice row) with
      | none => st.justices ++ [(rowJustice row,
          { name := formatJusticeName (rowJustice row), firstTerm := rowTermD row,
            lastTerm := rowTermD row, party := lookupA JUSTICE_PARTY (rowJustice row) })]
      | some ji => setA st.justices (rowJustice row)
          { ji with firstTerm := min ji.firstTerm (rowTermD row),
                    lastTerm := max ji.lastTerm (rowTermD row) } := by
  obtain ⟨h1, hterm, h3, h4⟩ := accepted_spec h
  have hmaj : rowMaj? row = some (rowMajD row) := by
    rcases h4 with h4 | h4 <;> simp [rowMajD, h4]
  have hm12 : ¬(rowMajD row ≠ 1 ∧ rowMajD row ≠ 2) := by
    rcases h4 with h4 | h4 <;> · rw [h4] at hmaj; simp at hmaj; simp [hmaj]
  unfold processStep
  rw [hterm, hmaj]
  simp [h1, h3, hm12]

/-- C6: a record whose case identifier is empty, whose period does not
parse as an integer, whose member identifier is empty, or whose outcome
code is not exactly one of the two valid participation codes (1 or 2)
is skipped without error: the fold step leaves the state unchanged, and
removing the record from any input sequence does not change the
resulting dataset at all. -/
theorem processData_skips_invalid (st : PState) (row : List (String × String))
    (h : rowCaseId row = "" ∨ rowTerm? row = none ∨ rowJustice row = ""
       ∨ (rowMaj? row ≠ some 1 ∧ rowMaj? row ≠ some 2)) :
    processStep st row = st
    ∧ ∀ xs ys : List (List (String × String)),
        processData (xs ++ row :: ys) = processData (xs ++ ys) := by
  refine ⟨processStep_of_rejected st row h, ?_⟩
  intro xs ys
  unfold processData
  rw [List.foldl_append, List.foldl_append, List.foldl_cons,
    processStep_of_rejected _ row h]

/-- Witness for C6: a concrete row with outcome code 9 is dropped by the
fold step. -/
theorem processData_skips_invalid_witness :
    processStep { cases := [], justices := [] }
        [("caseId", "c1"), ("term", "1960"), ("justiceName", "JJay"), ("majority", "9")]
      = { cases := [], justices := [] } :=
  (processData_skips_invalid { cases := [], justices := [] }
    [("caseId", "c1"), ("term", "1960"), ("justiceName", "JJay"), ("majority", "9")]
    (by decide)).1

theorem foldl_cases_term (rows : List (List (String × String))) (st : PState) (cid : String) :
    ((lookupA (rows.foldl processStep st).cases cid).map (fun ce => ce.term))
      = match lookupA st.cases cid with
        | some ce => some ce.term
        | none => (rows.find? (fun r => acceptedRow r && rowCaseId r == cid)).map rowTermD := by
  induction rows generalizing st with
  | nil =>
    simp only [List.foldl_nil, List.find?_nil]
    cases h : lookupA st.cases cid <;> simp
  | cons r rows ih =>
    simp only [List.foldl_cons]
    by_cases hacc : acceptedRow r = true
    · rw [ih (processStep st r), processStep_cases_of_accepted st r hacc]
      by_cases hcid : rowCaseId r = cid
      · subst hcid
        cases hlook : lookupA st.cases (rowCaseId r) with
        | some ce => simp [lookupA_setA_self]
        | none => simp [lookupA_append_single, hlook, List.find?_cons, hacc]
      · have hpred : (acceptedRow r && (rowCaseId r == cid)) = false := by
          simp [hcid]
        cases hlook : lookupA st.cases (rowCaseId r) with
        | some ce => simp [lookupA_setA_ne _ _ _ _ hcid, List.find?_cons, hpred]
        | none =>
          simp only [lookupA_append_single, List.find?_cons, hpred]
          cases hl2 : lookupA st.cases cid <;> simp [hcid]
    · have hr := rejected_of_not_accepted ((Bool.not_eq_true _).mp hacc)
      rw [processStep_of_rejected st r hr, ih st]
      have hpred : (acceptedRow r && (rowCaseId r == cid)) = false := by
        simp [(Bool.not_eq_true _).mp hacc]
      cases hlook : lookupA st.cases cid <;> simp [List.find?_cons, hpred]

theorem foldl_cases_vote (rows : List (List (String × String))) (st : PState)
    (cid m : String) :
    ((lookupA (rows.foldl processStep st).cases cid).bind (fun ce => lookupA ce.votes m))
      = match (rows.filter
            (fun r => acceptedRow r && rowCaseId r == cid && rowJustice r == m)).getLast? with
        | some r => some (rowMajD r)
        | none => (lookupA st.cases cid).bind (fun ce => lookupA ce.votes m) := by
  induction rows generalizing st with
  | nil => simp
  | cons r rows ih =>
    simp only [List.foldl_cons, List.filter_cons]
    by_cases hacc : acceptedRow r = true
    · by_cases hcid : rowCaseId r = cid
      · by_cases hjm : rowJustice r = m
        · subst hcid
          subst hjm
          have hpred : (acceptedRow r && (rowCaseId r == rowCaseId r)
              && (rowJustice r == rowJustice r)) = true := by simp [hacc]
          simp only [hpred, if_true]
          rw [ih (processStep st r), processStep_cases_of_accepted st r hacc]
          have hnew : (lookupA (match lookupA st.cases (rowCaseId r) with
              | none => st.cases ++ [(rowCaseId r,
                  { term := rowTermD r, votes := [(rowJustice r, rowMajD r)] })]
              | some ce => setA st.cases (rowCaseId r)
                  { ce with votes := setA ce.votes (rowJustice r) (rowMajD r) })
                (rowCaseId r)).bind (fun ce => lookupA ce.votes (rowJustice r))
              = some (rowMajD r) := by
            cases hlook : lookupA st.cases (rowCaseId r) with
            | some ce => simp [lookupA_setA_self]
            | none => simp [lookupA_append_single, hlook, lookupA]
          rw [hnew]
          rw [List.getLast?_cons]
          cases hfl : (List.filter
              (fun r2 => acceptedRow r2 && (rowCaseId r2 == rowCaseId r)
                && (rowJustice r2 == rowJustice r)) rows).getLast? with
          | some r2 => simp [hfl]
          | none => simp [hfl]
        · have hpred : (acceptedRow r && (rowCaseId r == cid)
              && (rowJustice r == m)) = false := by simp [hjm]
          simp only [hpred, if_false]
          rw [ih (processStep st r), processStep_cases_of_accepted st r hacc]
          subst hcid
          have hsame : (lookupA (match lookupA st.cases (rowCaseId r) with
              | none => st.cases ++ [(rowCaseId r,
                  { term := rowTermD r, votes := [(rowJustice r, rowMajD r)] })]
              | some ce => setA st.cases (rowCaseId r)
                  { ce with votes := setA ce.votes (rowJustice r) (rowMajD r) })
                (rowCaseId r)).bind (fun ce => lookupA ce.votes m)
              = (lookupA st.cases (rowCaseId r)).bind (fun ce => lookupA ce.votes m) := by
            cases hlook : lookupA st.cases (rowCaseId r) with
            | some ce => simp [lookupA_setA_self, lookupA_setA_ne _ _ _ _ hjm]
            | none => simp [lookupA_append_single, hlook, lookupA, hjm]
          rw [hsame]
          simp
      · have hpred : (acceptedRow r && (rowCaseId r == cid)
            && (rowJustice r == m)) = false := by simp [hcid]
        simp only [hpred, if_false]
        rw [ih (processStep st r), processStep_cases_of_accepted st r hacc]
        have hsame : (lookupA (match lookupA st.cases (rowCaseId r) with
            | none => st.cases ++ [(rowCaseId r,
                { term := rowTermD r, votes := [(rowJustice r, rowMajD r)] })]
            | some ce => setA st.cases (rowCaseId r)
                { ce with votes := setA ce.votes (rowJustice r) (rowMajD r) })
              cid).bind (fun ce => lookupA ce.votes m)
            = (lookupA st.cases cid).bind (fun ce => lookupA ce.votes m) := by
          cases hlook : lookupA st.cases (rowCaseId r) with
          | some ce => simp [lookupA_setA_ne _ _ _ _ hcid]
          | none =>
            simp only [lookupA_append_single]
            cases hl2 : lookupA st.cases cid <;> simp [hcid]
        rw [hsame]
        simp
    · have hr := rejected_of_not_accepted ((Bool.not_eq_true _).mp hacc)
      have hpred : (acceptedRow r && (rowCaseId r == cid)
          && (rowJustice r == m)) = false := by
        simp [(Bool.not_eq_true _).mp hacc]
      simp only [hpred, if_false]
      rw [processStep_of_rejected st r hr, ih st]
      simp

/-- C7: in the dataset produced by the canonicalizer, the period stored
for a case identifier is the period of the first accepted record with
that identifier (later records never change it), and the outcome code
stored for a case+member pair is that of the last accepted record with
that case identifier and member identifier (last-write-wins in fold
order). -/
theorem processData_first_term_last_vote (rows : List (List (String × String)))
    (cid m : String) :
    ((lookupA (processData rows).cases cid).map (fun ce => ce.term)
        = (rows.find? (fun r => acceptedRow r && rowCaseId r == cid)).map rowTermD)
    ∧ ((lookupA (processData rows).cases cid).bind (fun ce => lookupA ce.votes m)
        = ((rows.filter
              (fun r => acceptedRow r && rowCaseId r == cid && rowJustice r == m)).getLast?).map
            rowMajD) := by
  constructor
  · have h := foldl_cases_term rows { cases := [], justices := [] } cid
    simpa [processData, lookupA] using h
  · have h := foldl_cases_vote rows { cases := [], justices := [] } cid m
    unfold processData
    rw [h]
    cases hfl : (rows.filter
        (fun r => acceptedRow r && rowCaseId r == cid && rowJustice r == m)).getLast? with
    | some r2 => simp
    | none => simp [lookupA]

/-- The member-metadata invariant: every justice's first-active term is
at most its last-active term. -/
def firstLeLast (l : List (String × JusticeInfo)) : Prop :=
  ∀ p ∈ l, p.2.firstTerm ≤ p.2.lastTerm

/-- C9: the per-record member upsert preserves the invariant
first-active ≤ last-active (first-active is a running minimum,
last-active a running maximum), and the invariant holds of the member
mapping produced from any input record sequence. -/
theorem processData_first_le_last :
    (∀ (st : PState) (row : List (String × String)),
        firstLeLast st.justices → firstLeLast (processStep st row).justices)
    ∧ ∀ rows : List (List (String × String)), firstLeLast (processData rows).justices := by
  have hstep : ∀ st row, firstLeLast st.justices → firstLeLast (processStep st row).justices := by
    intro st row hinv
    by_cases hacc : acceptedRow row = true
    · rw [processStep_justices_of_accepted st row hacc]
      cases hlook : lookupA st.justices (rowJustice row) with
      | none =>
        intro p hp
        rcases List.mem_append.mp hp with hp | hp
        · exact hinv p hp
        · simp at hp
          rw [hp]
      | some ji =>
        intro p hp
        rcases mem_setA hp with hp | hp
        · exact hinv p hp
        · rw [hp]
          have hji : ji.firstTerm ≤ ji.lastTerm := hinv _ (lookupA_mem hlook)
          exact le_trans (min_le_left _ _) (le_trans hji (le_max_left _ _))
    · rw [processStep_of_rejected st row
        (rejected_of_not_accepted ((Bool.not_eq_true _).mp hacc))]
      exact hinv
  refine ⟨hstep, ?_⟩
  intro rows
  unfold processData
  have hfold : ∀ st, firstLeLast st.justices →
      firstLeLast ((rows.foldl processStep st)).justices := by
    induction rows with
    | nil => intro st h; exact h
    | cons r t ih => intro st h; exact ih _ (hstep st r h)
  exact hfold _ (by intro p hp; simp at hp)

/-- Witness for C9: the step invariant applied to the empty state and a
concrete accepted record. -/
theorem processData_first_le_last_witness :
    firstLeLast (processStep { cases := [], justices := [] }
      [("caseId", "c1"), ("term", "1960"), ("justiceName", "JJay"), ("majority", "1")]).justices :=
  processData_first_le_last.1 { cases := [], justices := [] }
    [("caseId", "c1"), ("term", "1960"), ("justiceName", "JJay"), ("majority", "1")]
    (by intro p hp; simp at hp)

/-- Witness for C8: a concrete one-field line is dropped from a parse
whose header has two fields. -/
theorem parseCSV_drops_malformed_and_trims_witness :
    parseCSVRows "caseId,term" ([] ++ "onlyonefield" :: []) = parseCSVRows "caseId,term" ([] ++ []) :=
  (parseCSV_drops_malformed_and_trims "caseId,term" "onlyonefield" [] []
    (Or.inr (by decide))).1

/-! Concurrence-matrix lemmas. -/

theorem applyVoterPair_total (m : Mat) (ji jj : Nat) (ag : Bool) (a b : Nat) :
    ((applyVoterPair m ji jj ag) a b).total =
      (m a b).total + (if a = ji ∧ b = jj then 1 else 0)
        + (if a = jj ∧ b = ji then 1 else 0) := by
  by_cases h1 : a = ji ∧ b = jj
  · obtain ⟨rfl, rfl⟩ := h1
    by_cases h2 : a = b
    · subst h2
      cases ag <;> simp [applyVoterPair, updAt]
    · cases ag <;> simp [applyVoterPair, updAt, h2, Ne.symm h2]
  · by_cases h2 : a = jj ∧ b = ji
    · obtain ⟨rfl, rfl⟩ := h2
      cases ag <;> simp [applyVoterPair, updAt, h1]
    · cases ag <;> simp [applyVoterPair, updAt, h1, h2]

theorem applyVoterPair_agreed (m : Mat) (ji jj : Nat) (ag : Bool) (a b : Nat) :
    ((applyVoterPair m ji jj ag) a b).agreed =
      (m a b).agreed + (if ag = true then
        (if a = ji ∧ b = jj then 1 else 0) + (if a = jj ∧ b = ji then 1 else 0) else 0) := by
  by_cases h1 : a = ji ∧ b = jj
  · obtain ⟨rfl, rfl⟩ := h1
    by_cases h2 : a = b
    · subst h2
      cases ag <;> simp [applyVoterPair, updAt]
    · cases ag <;> simp [applyVoterPair, updAt, h2, Ne.symm h2]
  · by_cases h2 : a = jj ∧ b = ji
    · obtain ⟨rfl, rfl⟩ := h2
      cases ag <;> simp [applyVoterPair, updAt, h1]
    · cases ag <;> simp [applyVoterPair, updAt, h1, h2]

/-- Symmetry of a matrix as a pointwise property. -/
def MatSymm (m : Mat) : Prop := ∀ a b, m a b = m b a

theorem applyVoterPair_symm (m : Mat) (ji jj : Nat) (ag : Bool) (h : MatSymm m) :
    MatSymm (applyVoterPair m ji jj ag) := by
  intro a b
  refine Cell.ext ?_ ?_
  · rw [applyVoterPair_agreed, applyVoterPair_agreed, h a b]
    have e1 : (b = ji ∧ a = jj) ↔ (a = jj ∧ b = ji) := and_comm
    have e2 : (b = jj ∧ a = ji) ↔ (a = ji ∧ b = jj) := and_comm
    rw [if_congr e1 rfl rfl, if_congr e2 rfl rfl]
    cases ag <;> simp [Nat.add_comm]
  · rw [applyVoterPair_total, applyVoterPair_total, h a b]
    have e1 : (b = ji ∧ a = jj) ↔ (a = jj ∧ b = ji) := and_comm
    have e2 : (b = jj ∧ a = ji) ↔ (a = ji ∧ b = jj) := and_comm
    rw [if_congr e1 rfl rfl, if_congr e2 rfl rfl]
    omega

theorem foldl_casePairStep_symm (js : List String) (votes : List (String × Int))
    (L : List (String × String)) {m : Mat} (h : MatSymm m) :
    MatSymm (L.foldl (casePairStep js votes) m) := by
  induction L generalizing m with
  | nil => exact h
  | cons p t ih => exact ih (applyVoterPair_symm _ _ _ _ h)

theorem calculateConcurrence_symm (cases : List AppCase) (js : List String) :
    MatSymm (calculateConcurrence cases js) := by
  unfold calculateConcurrence
  have hfold : ∀ m, MatSymm m → MatSymm (cases.foldl (caseFold js) m) := by
    induction cases with
    | nil => intro m h; exact h
    | cons c t ih => intro m h; exact ih _ (foldl_casePairStep_symm _ _ _ h)
  exact hfold _ (fun a b => rfl)

/-- C1: the matrix computed by the aggregation engine is symmetric: for
every pair of indices, cell (i, j) has the same agreed and total counts
as cell (j, i), for every case list and justice list (hence for every
period window, member subset and minSample). -/
theorem calculateConcurrence_symmetric (cases : List AppCase) (justices : List String)
    (i j : Nat) :
    calculateConcurrence cases justices i j = calculateConcurrence cases justices j i :=
  calculateConcurrence_symm cases justices i j

/-- Pointwise agreed ≤ total, the invariant behind well-formed rates. -/
def MatLe (m : Mat) : Prop := ∀ a b, (m a b).agreed ≤ (m a b).total

theorem applyVoterPair_le (m : Mat) (ji jj : Nat) (ag : Bool) (h : MatLe m) :
    MatLe (applyVoterPair m ji jj ag) := by
  intro a b
  rw [applyVoterPair_agreed, applyVoterPair_total]
  have hab := h a b
  by_cases c1 : a = ji ∧ b = jj
  · obtain ⟨rfl, rfl⟩ := c1
    by_cases c2 : a = b
    · subst c2
      cases ag <;> simp <;> omega
    · cases ag <;> simp [c2, Ne.symm c2] <;> omega
  · by_cases c2 : a = jj ∧ b = ji
    · obtain ⟨rfl, rfl⟩ := c2
      cases ag <;> simp [c1] <;> omega
    · cases ag <;> simp [c1, c2] <;> omega

theorem foldl_casePairStep_le (js : List String) (votes : List (String × Int))
    (L : List (String × String)) {m : Mat} (h : MatLe m) :
    MatLe (L.foldl (casePairStep js votes) m) := by
  induction L generalizing m with
  | nil => exact h
  | cons p t ih => exact ih (applyVoterPair_le _ _ _ _ h)

theorem calculateConcurrence_le (cases : List AppCase) (js : List String) :
    MatLe (calculateConcurrence cases js) := by
  unfold calculateConcurrence
  have hfold : ∀ m, MatLe m → MatLe (cases.foldl (caseFold js) m) := by
    induction cases with
    | nil => intro m h; exact h
    | cons c t ih => intro m h; exact ih _ (foldl_casePairStep_le _ _ _ h)
  exact hfold _ (fun a b => le_refl 0)

/-- C3: for every cell of the computed matrix, the rate is defined
(non-null) exactly when total > 0, and a defined rate lies in [0, 1]. -/
theorem calculateConcurrence_rate_defined_iff (cases : List AppCase) (js : List String)
    (i j : Nat) :
    (((calculateConcurrence cases js i j).rate).isSome = true
        ↔ 0 < (calculateConcurrence cases js i j).total)
    ∧ ∀ q : ℚ, (calculateConcurrence cases js i j).rate = some q → 0 ≤ q ∧ q ≤ 1 := by
  constructor
  · by_cases h : 0 < (calculateConcurrence cases js i j).total <;> simp [Cell.rate, h]
  · intro q hq
    unfold Cell.rate at hq
    by_cases h : 0 < (calculateConcurrence cases js i j).total
    · simp only [h, if_true, Option.some_inj] at hq
      subst hq
      constructor
      · positivity
      · rw [div_le_one (by exact_mod_cast h)]
        exact_mod_cast calculateConcurrence_le cases js i j
    · simp [h] at hq

/-- Witness for C3: a concrete two-justice, one-case dataset where the
(0, 1) cell has rate 1. -/
theorem calculateConcurrence_rate_defined_iff_witness : 0 ≤ (1 : ℚ) ∧ (1 : ℚ) ≤ 1 :=
  (calculateConcurrence_rate_defined_iff
      [{ id := "c1", term := 1960, votes := [("JJay", 1), ("JRutledge", 1)] }]
      ["JJay", "JRutledge"] 0 1).2 1 (by
    have hc : calculateConcurrence
        [{ id := "c1", term := 1960, votes := [("JJay", 1), ("JRutledge", 1)] }]
        ["JJay", "JRutledge"] 0 1 = { agreed := 1, total := 1 } := by decide
    rw [hc]
    simp [Cell.rate])

theorem foldPairs_diag_total (js : List String) (votes : List (String × Int))
    (L : List (String × String)) (m : Mat) (i : Nat) :
    ((L.foldl (casePairStep js votes) m) i i).total
      = (m i i).total
        + 2 * L.countP (fun p => jIndex js p.1 == i && jIndex js p.2 == i) := by
  induction L generalizing m with
  | nil => simp
  | cons p t ih =>
    simp only [List.foldl_cons, List.countP_cons]
    rw [ih]
    by_cases h1 : jIndex js p.1 = i
    · by_cases h2 : jIndex js p.2 = i
      · simp [casePairStep, applyVoterPair_total, h1, h2]
        omega
      · simp [casePairStep, applyVoterPair_total, h1, h2, Ne.symm h2]
    · by_cases h2 : jIndex js p.2 = i
      · simp [casePairStep, applyVoterPair_total, h1, h2, Ne.symm h1]
      · simp [casePairStep, applyVoterPair_total, h1, h2, Ne.symm h1, Ne.symm h2]

theorem foldPairs_diag_agreed (js : List String) (votes : List (String × Int))
    (L : List (String × String)) (m : Mat) (i : Nat) :
    ((L.foldl (casePairStep js votes) m) i i).agreed
      = (m i i).agreed
        + 2 * L.countP (fun p => jIndex js p.1 == i && jIndex js p.2 == i
            && decide (lookupA votes p.1 = lookupA votes p.2)) := by
  induction L generalizing m with
  | nil => simp
  | cons p t ih =>
    simp only [List.foldl_cons, List.countP_cons]
    rw [ih]
    by_cases h1 : jIndex js p.1 = i
    · by_cases h2 : jIndex js p.2 = i
      · by_cases hv : lookupA votes p.1 = lookupA votes p.2
        · simp [casePairStep, applyVoterPair_agreed, h1, h2, hv]
          omega
        · simp [casePairStep, applyVoterPair_agreed, h1, h2, hv]
      · simp [casePairStep, applyVoterPair_agreed, h1, h2, Ne.symm h2]
    · by_cases h2 : jIndex js p.2 = i
      · simp [casePairStep, applyVoterPair_agreed, h1, h2, Ne.symm h1]
      · simp [casePairStep, applyVoterPair_agreed, h1, h2, Ne.symm h1, Ne.symm h2]

theorem pairsSelf_mem {α : Type} (l : List α) (p : α × α) (h : p ∈ pairsSelf l) :
    p.1 ∈ l ∧ p.2 ∈ l := by
  induction l with
  | nil => simp [pairsSelf] at h
  | cons v rest ih =>
    simp only [pairsSelf, List.mem_append, List.mem_cons] at h
    rcases h with (h | h) | h
    · rw [h]
      simp
    · rcases List.mem_map.mp h with ⟨w, hw, he⟩
      rw [← he]
      simp [hw]
    · rcases ih h with ⟨h1, h2⟩
      simp [h1, h2]

theorem pairsSelf_countP_self {α : Type} [DecidableEq α] (l : List α) (hn : l.Nodup) (x : α) :
    (pairsSelf l).countP (fun p => p.1 == x && p.2 == x) = if x ∈ l then 1 else 0 := by
  induction l with
  | nil => simp [pairsSelf]
  | cons v rest ih =>
    have hnr : rest.Nodup := (List.nodup_cons.mp hn).2
    have hvr : v ∉ rest := (List.nodup_cons.mp hn).1
    simp only [pairsSelf, List.countP_append, List.countP_cons, List.countP_map]
    rw [ih hnr]
    have hcnt : List.countP (fun w => w == x) rest = if x ∈ rest then 1 else 0 := by
      have he : List.countP (fun w => w == x) rest = List.count x rest := rfl
      rw [he]
      by_cases hxr : x ∈ rest
      · rw [List.count_eq_one_of_mem hnr hxr, if_pos hxr]
      · rw [List.count_eq_zero_of_not_mem hxr, if_neg hxr]
    by_cases hvx : v = x
    · subst hvx
      have hmap : List.countP ((fun p : α × α => p.1 == v && p.2 == v)
          ∘ (fun w => (v, w))) rest = 0 := by
        rw [List.countP_eq_zero]
        intro w hw
        simp only [Function.comp]
        simp
        intro hwv
        exact absurd (hwv ▸ hw) hvr
      rw [hmap]
      simp [hvr]
    · have hmap : List.countP ((fun p : α × α => p.1 == x && p.2 == x)
          ∘ (fun w => (v, w))) rest = 0 := by
        rw [List.countP_eq_zero]
        intro w hw
        simp [hvx]
      rw [hmap]
      simp [hvx, Ne.symm hvx]

theorem jIndex_get_self (js : List String) (a : String) (ha : a ∈ js) :
    ∃ h : jIndex js a < js.length, js.get ⟨jIndex js a, h⟩ = a := by
  have ha' : a ∈ js.reverse := List.mem_reverse.mpr ha
  have hri : js.reverse.indexOf a < js.reverse.length := List.indexOf_lt_length.mpr ha'
  have hlen : js.reverse.length = js.length := List.length_reverse js
  have hlt : jIndex js a < js.length := by
    unfold jIndex
    omega
  refine ⟨hlt, ?_⟩
  have hget : js.reverse.get ⟨js.reverse.indexOf a, hri⟩ = a := List.indexOf_get hri
  rw [List.get_reverse' js ⟨js.reverse.indexOf a, hri⟩ (by simp at hri ⊢; omega)] at hget
  exact hget

theorem jIndex_eq_iff (js : List String) (hn : js.Nodup) (i : Nat) (hi : i < js.length)
    (a : String) (ha : a ∈ js) :
    jIndex js a = i ↔ a = js.get ⟨i, hi⟩ := by
  obtain ⟨hlt, hget⟩ := jIndex_get_self js a ha
  constructor
  · intro he
    rw [← hget]
    congr 1
    exact (Fin.mk_eq_mk.mpr he).symm ▸ rfl
  · intro he
    have : js.get ⟨jIndex js a, hlt⟩ = js.get ⟨i, hi⟩ := by rw [hget, he]
    have := (hn.get_inj_iff.mp this)
    exact Fin.mk_eq_mk.mp this

theorem contains_iff_mem (js : List String) (v : String) :
    js.contains v = true ↔ v ∈ js := by
  simp [List.contains]

theorem caseFold_diag (js : List String) (c : AppCase) (m : Mat) (hn : js.Nodup)
    (hc : (c.votes.map Prod.fst).Nodup) (i : Nat) (hi : i < js.length) :
    ((caseFold js m c) i i).total = (m i i).total
        + 2 * (if (lookupA c.votes (js.get ⟨i, hi⟩)).isSome = true then 1 else 0)
    ∧ ((caseFold js m c) i i).agreed = (m i i).agreed
        + 2 * (if (lookupA c.votes (js.get ⟨i, hi⟩)).isSome = true then 1 else 0) := by
  have hvn : ((c.votes.map Prod.fst).filter (fun v => js.contains v)).Nodup :=
    hc.filter _
  have hmemjs : ∀ v ∈ (c.votes.map Prod.fst).filter (fun v => js.contains v), v ∈ js := by
    intro v hv
    exact (contains_iff_mem js v).mp (List.mem_filter.mp hv).2
  have hJmem : js.get ⟨i, hi⟩ ∈ js := js.get_mem _ _
  have hcong : ∀ p ∈ pairsSelf ((c.votes.map Prod.fst).filter (fun v => js.contains v)),
      ((jIndex js p.1 == i && jIndex js p.2 == i) = true
        ↔ (p.1 == js.get ⟨i, hi⟩ && p.2 == js.get ⟨i, hi⟩) = true) := by
    intro p hp
    obtain ⟨h1, h2⟩ := pairsSelf_mem _ p hp
    have m1 : p.1 ∈ js := hmemjs _ h1
    have m2 : p.2 ∈ js := hmemjs _ h2
    simp only [Bool.and_eq_true, beq_iff_eq]
    rw [jIndex_eq_iff js hn i hi p.1 m1, jIndex_eq_iff js hn i hi p.2 m2]
  have hcount : (pairsSelf ((c.votes.map Prod.fst).filter (fun v => js.contains v))).countP
        (fun p => jIndex js p.1 == i && jIndex js p.2 == i)
      = if (lookupA c.votes (js.get ⟨i, hi⟩)).isSome = true then 1 else 0 := by
    rw [List.countP_congr hcong,
      pairsSelf_countP_self _ hvn (js.get ⟨i, hi⟩)]
    by_cases hmem : js.get ⟨i, hi⟩ ∈ (c.votes.map Prod.fst).filter (fun v => js.contains v)
    · have hiso : (lookupA c.votes (js.get ⟨i, hi⟩)).isSome = true := by
        rw [lookupA_isSome_iff]
        exact (List.mem_filter.mp hmem).1
      rw [if_pos hmem, if_pos hiso]
    · have hiso : ¬(lookupA c.votes (js.get ⟨i, hi⟩)).isSome = true := by
        rw [lookupA_isSome_iff]
        intro hk
        exact hmem (List.mem_filter.mpr ⟨hk, (contains_iff_mem js _).mpr hJmem⟩)
      rw [if_neg hmem, if_neg hiso]
  have hcong2 : ∀ p ∈ pairsSelf ((c.votes.map Prod.fst).filter (fun v => js.contains v)),
      ((jIndex js p.1 == i && jIndex js p.2 == i
          && decide (lookupA c.votes p.1 = lookupA c.votes p.2)) = true
        ↔ (jIndex js p.1 == i && jIndex js p.2 == i) = true) := by
    intro p hp
    obtain ⟨h1, h2⟩ := pairsSelf_mem _ p hp
    have m1 : p.1 ∈ js := hmemjs _ h1
    have m2 : p.2 ∈ js := hmemjs _ h2
    simp only [Bool.and_eq_true, beq_iff_eq, decide_eq_true_eq]
    constructor
    · rintro ⟨⟨ha, hb⟩, _⟩
      exact ⟨ha, hb⟩
    · rintro ⟨ha, hb⟩
      have he : p.1 = p.2 := by
        rw [(jIndex_eq_iff js hn i hi p.1 m1).mp ha, (jIndex_eq_iff js hn i hi p.2 m2).mp hb]
      exact ⟨⟨ha, hb⟩, by rw [he]⟩
  constructor
  · rw [caseFold, foldPairs_diag_total, hcount]
  · rw [caseFold, foldPairs_diag_agreed, List.countP_congr hcong2, hcount]

theorem foldCases_diag (cases : List AppCase) (js : List String) (m : Mat) (hn : js.Nodup)
    (hv : ∀ c ∈ cases, (c.votes.map Prod.fst).Nodup) (i : Nat) (hi : i < js.length) :
    ((cases.foldl (caseFold js) m) i i).total = (m i i).total
        + 2 * cases.countP (fun c => (lookupA c.votes (js.get ⟨i, hi⟩)).isSome)
    ∧ ((cases.foldl (caseFold js) m) i i).agreed = (m i i).agreed
        + 2 * cases.countP (fun c => (lookupA c.votes (js.get ⟨i, hi⟩)).isSome) := by
  induction cases generalizing m with
  | nil => simp
  | cons c rest ih =>
    have hc : (c.votes.map Prod.fst).Nodup := hv c (List.mem_cons_self _ _)
    have hrest : ∀ c2 ∈ rest, (c2.votes.map Prod.fst).Nodup :=
      fun c2 h2 => hv c2 (List.mem_cons_of_mem _ h2)
    simp only [List.foldl_cons, List.countP_cons]
    obtain ⟨iht, iha⟩ := ih (caseFold js m c) hrest
    obtain ⟨hct, hca⟩ := caseFold_diag js c m hn hc i hi
    constructor
    · rw [iht, hct]
      omega
    · rw [iha, hca]
      omega

/-- C10: each diagonal cell (i, i) of the matrix has total equal to
exactly twice the number of selected cases in which active member i
participated, agreed equal to that same value, and rate 1 whenever
member i participated in at least one selected case.  (Nodup of the
justice list and of each case's vote keys holds for every dataset the
canonicalizer produces.) -/
theorem calculateConcurrence_diag_twice (cases : List AppCase) (js : List String)
    (hn : js.Nodup) (hv : ∀ c ∈ cases, (c.votes.map Prod.fst).Nodup)
    (i : Nat) (hi : i < js.length) :
    (calculateConcurrence cases js i i).total
        = 2 * cases.countP (fun c => (lookupA c.votes (js.get ⟨i, hi⟩)).isSome)
    ∧ (calculateConcurrence cases js i i).agreed
        = 2 * cases.countP (fun c => (lookupA c.votes (js.get ⟨i, hi⟩)).isSome)
    ∧ (0 < cases.countP (fun c => (lookupA c.votes (js.get ⟨i, hi⟩)).isSome) →
        (calculateConcurrence cases js i i).rate = some 1) := by
  obtain ⟨ht, ha⟩ := foldCases_diag cases js (fun _ _ => { agreed := 0, total := 0 }) hn hv i hi
  have ht' : (calculateConcurrence cases js i i).total
      = 2 * cases.countP (fun c => (lookupA c.votes (js.get ⟨i, hi⟩)).isSome) := by
    rw [calculateConcurrence, ht]
    simp
  have ha' : (calculateConcurrence cases js i i).agreed
      = 2 * cases.countP (fun c => (lookupA c.votes (js.get ⟨i, hi⟩)).isSome) := by
    rw [calculateConcurrence, ha]
    simp
  refine ⟨ht', ha', ?_⟩
  intro hpos
  unfold Cell.rate
  rw [ht', ha']
  have h2 : 0 < 2 * cases.countP (fun c => (lookupA c.votes (js.get ⟨i, hi⟩)).isSome) := by
    omega
  rw [if_pos h2]
  congr 1
  rw [div_self]
  exact_mod_cast Nat.pos_iff_ne_zero.mp h2

/-- Witness for C10: one case with one participating justice gives the
diagonal cell rate 1. -/
theorem calculateConcurrence_diag_twice_witness :
    (calculateConcurrence [{ id := "c1", term := 1960, votes := [("JJay", 1)] }]
      ["JJay"] 0 0).rate = some 1 :=
  (calculateConcurrence_diag_twice [{ id := "c1", term := 1960, votes := [("JJay", 1)] }]
    ["JJay"] (by decide) (by decide) 0 (by decide)).2.2 (by decide)

/-- Counterexample for C2: with a single case in which the single active
member participates, the diagonal cell (0, 0) is incremented to
agreed = 2, total = 2, so the fold does not exclude self-pairs and the
diagonal is not left untouched. -/
theorem calculateConcurrence_diagonal_incremented :
    calculateConcurrence [{ id := "c1", term := 1960, votes := [("JJay", 1)] }] ["JJay"] 0 0
        = { agreed := 2, total := 2 }
    ∧ calculateConcurrence [{ id := "c1", term := 1960, votes := [("JJay", 1)] }] ["JJay"] 0 0
        ≠ { agreed := 0, total := 0 } := by
  constructor
  · decide
  · decide

/-- C2 amended: the pair loop includes self-pairs, so folding one more
case increments the diagonal cell (i, i) of each member participating
in that case by exactly 2 in both total and agreed, and leaves the
diagonal cells of non-participants unchanged. -/
theorem calculateConcurrence_diagonal_step (cs : List AppCase) (c : AppCase)
    (js : List String) (hn : js.Nodup) (hc : (c.votes.map Prod.fst).Nodup)
    (i : Nat) (hi : i < js.length) :
    (calculateConcurrence (cs ++ [c]) js i i).total
        = (calculateConcurrence cs js i i).total
          + 2 * (if (lookupA c.votes (js.get ⟨i, hi⟩)).isSome = true then 1 else 0)
    ∧ (calculateConcurrence (cs ++ [c]) js i i).agreed
        = (calculateConcurrence cs js i i).agreed
          + 2 * (if (lookupA c.votes (js.get ⟨i, hi⟩)).isSome = true then 1 else 0) := by
  unfold calculateConcurrence
  rw [List.foldl_append]
  simp only [List.foldl_cons, List.foldl_nil]
  exact caseFold_diag js c _ hn hc i hi

/-- Witness for the amended C2: appending one case in which the single
justice participates adds 2 to the diagonal total. -/
theorem calculateConcurrence_diagonal_step_witness :
    (calculateConcurrence ([] ++ [{ id := "c1", term := 1960, votes := [("JJay", 1)] }])
        ["JJay"] 0 0).total
      = (calculateConcurrence [] ["JJay"] 0 0).total
        + 2 * (if (lookupA [("JJay", (1 : Int))] "JJay").isSome = true then 1 else 0) := by
  have h := (calculateConcurrence_diagonal_step []
    { id := "c1", term := 1960, votes := [("JJay", 1)] }
    ["JJay"] (by decide) (by decide) 0 (by decide)).1
  simpa using h

/-! Comparator lemmas for the justice ordering. -/

theorem lexCmp_eq_iff (x y : List Char) : lexCmp x y = Ordering.eq ↔ x = y := by
  induction x generalizing y with
  | nil => cases y <;> simp [lexCmp]
  | cons a as ih =>
    cases y with
    | nil => simp [lexCmp]
    | cons b bs =>
      rcases lt_trichotomy a b with h | h | h
      · simp [lexCmp, h, ne_of_lt h]
      · subst h
        simp [lexCmp, lt_irrefl, ih]
      · simp [lexCmp, h, lt_asymm h, (ne_of_gt h)]

theorem lexCmp_swap (x y : List Char) : lexCmp y x = (lexCmp x y).swap := by
  induction x generalizing y with
  | nil => cases y <;> simp [lexCmp, Ordering.swap]
  | cons a as ih =>
    cases y with
    | nil => simp [lexCmp, Ordering.swap]
    | cons b bs =>
      rcases lt_trichotomy a b with h | h | h
      · simp [lexCmp, h, lt_asymm h, Ordering.swap]
      · subst h
        simp [lexCmp, lt_irrefl, ih]
      · simp [lexCmp, h, lt_asymm h, Ordering.swap]

theorem lexCmp_lt_trans {x y z : List Char} (h1 : lexCmp x y = Ordering.lt)
    (h2 : lexCmp y z = Ordering.lt) : lexCmp x z = Ordering.lt := by
  induction x generalizing y z with
  | nil =>
    cases y with
    | nil => simp [lexCmp] at h1
    | cons b bs =>
      cases z with
      | nil => simp [lexCmp] at h2
      | cons c cs => simp [lexCmp]
  | cons a as ih =>
    cases y with
    | nil => simp [lexCmp] at h1
    | cons b bs =>
      cases z with
      | nil => simp [lexCmp] at h2
      | cons c cs =>
        by_cases hab : a < b
        · by_cases hbc : b < c
          · simp [lexCmp, lt_trans hab hbc]
          · by_cases hcb : c < b
            · simp [lexCmp, hbc, hcb] at h2
            · have he : b = c := le_antisymm (not_lt.mp hcb) (not_lt.mp hbc)
              subst he
              simp [lexCmp, hab]
        · by_cases hba : b < a
          · simp [lexCmp, hab, hba] at h1
          · have hae : a = b := le_antisymm (not_lt.mp hba) (not_lt.mp hab)
            subst hae
            simp only [lexCmp, lt_irrefl, if_false] at h1
            by_cases hac : a < c
            · simp [lexCmp, hac]
            · by_cases hca : c < a
              · simp [lexCmp, hac, hca] at h2
              · have hae2 : a = c := le_antisymm (not_lt.mp hca) (not_lt.mp hac)
                subst hae2
                simp only [lexCmp, lt_irrefl, if_false] at h2 ⊢
                exact ih h1 h2

theorem lexCmp_le_trans {x y z : List Char} (h1 : lexCmp x y ≠ Ordering.gt)
    (h2 : lexCmp y z ≠ Ordering.gt) : lexCmp x z ≠ Ordering.gt := by
  cases hxy : lexCmp x y with
  | gt => exact absurd hxy h1
  | eq =>
    rw [lexCmp_eq_iff] at hxy
    rw [hxy]
    exact h2
  | lt =>
    cases hyz : lexCmp y z with
    | gt => exact absurd hyz h2
    | eq =>
      rw [lexCmp_eq_iff] at hyz
      rw [← hyz]
      simp [hxy]
    | lt => simp [lexCmp_lt_trans hxy hyz]

theorem localeCmp_swap (a b : String) : localeCmp b a = (localeCmp a b).swap := by
  unfold localeCmp
  rw [lexCmp_swap (lowerChars a) (lowerChars b), lexCmp_swap a.data b.data]
  exact (Ordering.swap_then _ _).symm

theorem localeCmp_le_trans {a b c : String} (h1 : localeCmp a b ≠ Ordering.gt)
    (h2 : localeCmp b c ≠ Ordering.gt) : localeCmp a c ≠ Ordering.gt := by
  unfold localeCmp at h1 h2 ⊢
  cases hab : lexCmp (lowerChars a) (lowerChars b) with
  | gt => rw [hab] at h1; exact absurd rfl h1
  | eq =>
    have he : lowerChars a = lowerChars b := (lexCmp_eq_iff _ _).mp hab
    rw [hab] at h1
    simp only [Ordering.then] at h1
    cases hbc : lexCmp (lowerChars b) (lowerChars c) with
    | gt => rw [hbc] at h2; exact absurd rfl h2
    | eq =>
      have he2 : lowerChars b = lowerChars c := (lexCmp_eq_iff _ _).mp hbc
      rw [hbc] at h2
      simp only [Ordering.then] at h2
      rw [he, he2, (lexCmp_eq_iff (lowerChars c) (lowerChars c)).mpr rfl]
      simp only [Ordering.then]
      exact lexCmp_le_trans h1 h2
    | lt =>
      rw [he, hbc]
      simp [Ordering.then]
  | lt =>
    cases hbc : lexCmp (lowerChars b) (lowerChars c) with
    | gt => rw [hbc] at h2; exact absurd rfl h2
    | eq =>
      have he2 : lowerChars b = lowerChars c := (lexCmp_eq_iff _ _).mp hbc
      rw [← he2, hab]
      simp [Ordering.then]
    | lt =>
      rw [lexCmp_lt_trans hab hbc]
      simp [Ordering.then]

theorem localeCmp_total (a b : String) :
    localeCmp a b ≠ Ordering.gt ∨ localeCmp b a ≠ Ordering.gt := by
  cases h : localeCmp a b with
  | lt => left; simp [h]
  | eq => left; simp [h]
  | gt =>
    right
    rw [localeCmp_swap, h]
    simp [Ordering.swap]

theorem jLE_trans (data : AppData) {a b c : String} (h1 : jLE data a b = true)
    (h2 : jLE data b c = true) : jLE data a c = true := by
  unfold jLE at h1 h2 ⊢
  by_cases hab : firstTermOrZero data a = firstTermOrZero data b
  · by_cases hbc : firstTermOrZero data b = firstTermOrZero data c
    · rw [if_pos hab] at h1
      rw [if_pos hbc] at h2
      rw [if_pos (hab.trans hbc)]
      rw [decide_eq_true_eq] at h1 h2 ⊢
      exact localeCmp_le_trans h1 h2
    · rw [if_pos hab] at h1
      rw [if_neg hbc] at h2
      rw [decide_eq_true_eq] at h2
      have hlt : firstTermOrZero data a < firstTermOrZero data c := hab ▸ h2
      rw [if_neg (ne_of_lt hlt)]
      exact decide_eq_true hlt
  · rw [if_neg hab] at h1
    rw [decide_eq_true_eq] at h1
    by_cases hbc : firstTermOrZero data b = firstTermOrZero data c
    · have hlt : firstTermOrZero data a < firstTermOrZero data c := hbc ▸ h1
      rw [if_neg (ne_of_lt hlt)]
      exact decide_eq_true hlt
    · rw [if_neg hbc] at h2
      rw [decide_eq_true_eq] at h2
      have hlt : firstTermOrZero data a < firstTermOrZero data c := lt_trans h1 h2
      rw [if_neg (ne_of_lt hlt)]
      exact decide_eq_true hlt

theorem jLE_total (data : AppData) (a b : String) :
    jLE data a b = true ∨ jLE data b a = true := by
  unfold jLE
  by_cases hab : firstTermOrZero data a = firstTermOrZero data b
  · rw [if_pos hab, if_pos hab.symm]
    rcases localeCmp_total a b with h | h
    · left; exact decide_eq_true h
    · right; exact decide_eq_true h
  · rcases lt_or_gt_of_ne hab with h | h
    · left
      rw [if_neg hab]
      exact decide_eq_true h
    · right
      rw [if_neg (Ne.symm hab)]
      exact decide_eq_true h

/-- C5 amended: the active-member list is sorted by the engine's actual
comparator: ascending first-active period (members missing from the
metadata counting as period 0), ties broken by the locale comparison of
the member identifiers (not of the display names). -/
theorem getActiveJustices_sorted (data : AppData) (cases : List AppCase)
    (sel : Option (List String)) :
    List.Pairwise (fun a b => jLE data a b = true) (getActiveJustices data cases sel) := by
  have hs : List.Sorted (fun a b => jLE data a b = true)
      (getAllJusticesInRange data cases) := by
    unfold getAllJusticesInRange
    exact @List.sorted_insertionSort String (fun a b => jLE data a b = true)
      (fun a b => instDecidableEqBool _ _) ⟨fun a b => jLE_total data a b⟩
      ⟨fun a b c h1 h2 => jLE_trans data h1 h2⟩ (justiceSetOf cases)
  unfold getActiveJustices
  cases sel with
  | none => exact hs
  | some s => exact List.Pairwise.sublist (List.filter_sublist _) hs

/-- A concrete dataset exposing the tie-break discrepancy of C5: two
justices with the same first term whose identifier order and
display-name order disagree.  The display names are exactly what
`formatJusticeName` derives from the identifiers. -/
def cxData : AppData := {
  cases := [{ id := "cx1", term := 1950, votes := [("ABYoung", 1), ("AZed", 1)] }],
  justices := [
    ("ABYoung", { name := "A.B. Young", firstTerm := 1950, lastTerm := 1950, party := none }),
    ("AZed", { name := "A. Zed", firstTerm := 1950, lastTerm := 1950, party := none })] }

/-- Counterexample for C5: the engine returns ["ABYoung", "AZed"]
(identifier order), but case-insensitive lexical order of the display
names ("A.B. Young" vs "A. Zed") puts "A. Zed" first, so the returned
list is not ordered by first-active period with display-name
tie-breaks. -/
theorem getActiveJustices_not_name_ordered :
    getActiveJustices cxData cxData.cases none = ["ABYoung", "AZed"]
    ∧ ¬ List.Pairwise (fun a b => specMemberLE cxData a b = true)
        (getActiveJustices cxData cxData.cases none) := by
  have he : getActiveJustices cxData cxData.cases none = ["ABYoung", "AZed"] := by decide
  refine ⟨he, ?_⟩
  rw [he]
  intro hp
  have := List.rel_of_pairwise_cons hp (List.mem_cons_self _ _)
  revert this
  decide

/-- C4 (evidence of the latent defect): on a degenerate filter result —
two active members who share no case, so no off-diagonal cell has a
defined rate with total at or above the threshold — the scale-range
scan of renderMatrix leaves its initial accumulator (minRate, maxRate)
= (1, 0): a fabricated inverted min > max range fed to the color scale
and the legend, not an explicit empty-range condition. -/
theorem scaleRange_degenerate_inverted :
    scaleRange (calculateConcurrence
        [{ id := "c1", term := 1960, votes := [("JJay", 1)] },
         { id := "c2", term := 1961, votes := [("JRutledge", 1)] }]
        ["JJay", "JRutledge"]) 2 1 = (1, 0)
    ∧ (scaleRange (calculateConcurrence
        [{ id := "c1", term := 1960, votes := [("JJay", 1)] },
         { id := "c2", term := 1961, votes := [("JRutledge", 1)] }]
        ["JJay", "JRutledge"]) 2 1).2
      < (scaleRange (calculateConcurrence
        [{ id := "c1", term := 1960, votes := [("JJay", 1)] },
         { id := "c2", term := 1961, votes := [("JRutledge", 1)] }]
        ["JJay", "JRutledge"]) 2 1).1 := by
  constructor
  · decide
  · decide
